import Mathlib

/-!
Shallow embedding of `optimize_layout_fixed_pe.py`: the fixed-budget PE
layout optimizer for CESM cases.  Python integers are modelled as `ℕ`/`ℤ`,
Python floats as `ℚ`, dictionaries as functions or association lists, and
fallible code (exceptions, `optuna.TrialPruned`) as `Option`/`Except`.
-/

/-- Fixed PE budget (`TOTAL_PES = 1024` in the script). -/
def TOTAL_PES : ℕ := 1024

/-- Known component names (`COMPONENTS` in the script). -/
def COMPONENTS : List String :=
  ["ATM", "LND", "ICE", "CPL", "ROF", "GLC", "WAV", "OCN"]

/-- Upper task-count limits table (`TASK_MAX_LIMITS`). -/
def TASK_MAX_LIMITS : String → Option ℕ :=
  fun c => if c = "ATM" then some 5400 else none

/-- Lower task-count limits table (`TASK_MIN_LIMITS`). -/
def TASK_MIN_LIMITS : String → Option ℕ :=
  fun c => if c = "ATM" then some 64 else if c = "OCN" then some 512 else none

/-- The effective minimum for a component: `TASK_MIN_LIMITS.get(comp, 1)`. -/
def min_limit (c : String) : ℕ := (TASK_MIN_LIMITS c).getD 1

/-- The effective maximum for a component: `TASK_MAX_LIMITS.get(comp, TOTAL_PES)`. -/
def max_limit (c : String) : ℕ := (TASK_MAX_LIMITS c).getD TOTAL_PES

/-!
### Legality Snapper: `legal_ntasks`

The Python code builds
`divisors = [i for i in range(1, max_mpi + 1) if max_mpi % i == 0]`,
`multiples = [i for i in range(max_mpi, TOTAL_PES + 1, max_mpi)]`,
`candidates = sorted(set(divisors + multiples))` and returns
`min(candidates, key=lambda x: abs(x - value))`.  Python's `min` keeps the
first element attaining the minimal key, so over the ascending candidate
list ties go to the smaller candidate.
-/

/-- Divisor candidates of `max_mpi`: the list `[i in 1..max_mpi | max_mpi % i == 0]`. -/
def divisorsOf (max_mpi : ℕ) : List ℕ :=
  (List.range' 1 max_mpi).filter (fun i => max_mpi % i == 0)

/-- Multiple candidates of `max_mpi` up to `TOTAL_PES`:
`range(max_mpi, TOTAL_PES + 1, max_mpi)`. -/
def multiplesOf (max_mpi : ℕ) : List ℕ :=
  (List.range' 1 (TOTAL_PES / max_mpi)).map (fun k => k * max_mpi)

/-- `sorted(set(divisors + multiples))`. -/
def candidatesList (max_mpi : ℕ) : List ℕ :=
  List.insertionSort (· ≤ ·) ((divisorsOf max_mpi ++ multiplesOf max_mpi).dedup)

/-- The key used by the `min` call: `abs(x - value)`. -/
def distTo (value : ℤ) (x : ℕ) : ℕ := ((x : ℤ) - value).natAbs

/-- Left fold realizing Python `min(b :: l, key=lambda x: abs(x - value))`:
the first element attaining the minimal key wins. -/
def pickMin (value : ℤ) (b : ℕ) (l : List ℕ) : ℕ :=
  l.foldl (fun b y => if distTo value y < distTo value b then y else b) b

/-- Python `min` over a possibly empty list (raises on empty, hence `Option`). -/
def minByDist (value : ℤ) : List ℕ → Option ℕ
  | [] => none
  | x :: xs => some (pickMin value x xs)

/-- `legal_ntasks(value, max_mpi)`: snap `value` to the closest divisor or
multiple of `max_mpi` (multiples capped at `TOTAL_PES`). -/
def legal_ntasks (value : ℤ) (max_mpi : ℕ) : Option ℕ :=
  minByDist value (candidatesList max_mpi)

/-!
### Facts about the snapper's candidate set and the min-by-distance fold
-/

theorem mem_range'_one {s n m : ℕ} : m ∈ List.range' s n ↔ s ≤ m ∧ m < s + n := by
  rw [List.mem_range']
  constructor
  · rintro ⟨i, hi, rfl⟩; omega
  · rintro ⟨h1, h2⟩; exact ⟨m - s, by omega, by omega⟩

theorem mem_divisorsOf {w x : ℕ} : x ∈ divisorsOf w ↔ (1 ≤ x ∧ x ≤ w ∧ w % x = 0) := by
  simp only [divisorsOf, List.mem_filter, mem_range'_one, beq_iff_eq]
  omega

theorem mem_multiplesOf {w x : ℕ} :
    x ∈ multiplesOf w ↔ ∃ k, 1 ≤ k ∧ k ≤ TOTAL_PES / w ∧ x = k * w := by
  simp only [multiplesOf, List.mem_map, mem_range'_one]
  constructor
  · rintro ⟨k, ⟨h1, h2⟩, rfl⟩; exact ⟨k, h1, by omega, rfl⟩
  · rintro ⟨k, h1, h2, rfl⟩; exact ⟨k, ⟨h1, by omega⟩, rfl⟩

theorem mem_candidatesList {w x : ℕ} :
    x ∈ candidatesList w ↔ (x ∈ divisorsOf w ∨ x ∈ multiplesOf w) := by
  unfold candidatesList
  rw [List.mem_insertionSort, List.mem_dedup, List.mem_append]

theorem candidatesList_sorted (w : ℕ) : List.Sorted (· ≤ ·) (candidatesList w) :=
  List.sorted_insertionSort _ _

theorem one_mem_candidatesList {w : ℕ} (hw : 1 ≤ w) : 1 ∈ candidatesList w := by
  rw [mem_candidatesList]
  exact Or.inl (mem_divisorsOf.2 ⟨le_refl 1, hw, Nat.mod_one w⟩)

theorem pickMin_cons (v : ℤ) (b c : ℕ) (cs : List ℕ) :
    pickMin v b (c :: cs) = pickMin v (if distTo v c < distTo v b then c else b) cs := rfl

theorem pickMin_mem (v : ℤ) (l : List ℕ) : ∀ b : ℕ, pickMin v b l ∈ b :: l := by
  induction l with
  | nil => intro b; exact List.mem_cons_self _ _
  | cons c cs ih =>
    intro b
    rw [pickMin_cons]
    rcases List.mem_cons.1 (ih (if distTo v c < distTo v b then c else b)) with h | h
    · rw [h]
      split
      · exact List.mem_cons_of_mem _ (List.mem_cons_self _ _)
      · exact List.mem_cons_self _ _
    · exact List.mem_cons_of_mem _ (List.mem_cons_of_mem _ h)

theorem pickMin_dist_le (v : ℤ) (l : List ℕ) :
    ∀ b : ℕ, ∀ y ∈ b :: l, distTo v (pickMin v b l) ≤ distTo v y := by
  induction l with
  | nil =>
    intro b y hy
    rcases List.mem_cons.1 hy with rfl | h
    · exact le_refl _
    · cases h
  | cons c cs ih =>
    intro b y hy
    rw [pickMin_cons]
    have hhead : distTo v (pickMin v (if distTo v c < distTo v b then c else b) cs) ≤
        distTo v (if distTo v c < distTo v b then c else b) :=
      ih _ _ (List.mem_cons_self _ _)
    rcases List.mem_cons.1 hy with rfl | h
    · refine le_trans hhead ?_
      split
      · omega
      · exact le_refl _
    · rcases List.mem_cons.1 h with rfl | h
      · refine le_trans hhead ?_
        split
        · exact le_refl _
        · omega
      · exact ih _ _ (List.mem_cons_of_mem _ h)

theorem pickMin_tie_le (v : ℤ) (l : List ℕ) :
    ∀ b : ℕ, List.Sorted (· ≤ ·) (b :: l) →
      ∀ y ∈ b :: l, distTo v y ≤ distTo v (pickMin v b l) → pickMin v b l ≤ y := by
  induction l with
  | nil =>
    intro b _ y hy _
    rcases List.mem_cons.1 hy with rfl | h
    · exact le_refl _
    · cases h
  | cons c cs ih =>
    intro b hs y hy ht
    have hbc : b ≤ c := (List.sorted_cons.1 hs).1 c (List.mem_cons_self _ _)
    by_cases hcb : distTo v c < distTo v b
    · have hstep : pickMin v b (c :: cs) = pickMin v c cs := by
        rw [pickMin_cons, if_pos hcb]
      rw [hstep] at ht ⊢
      have hccs : List.Sorted (· ≤ ·) (c :: cs) := (List.sorted_cons.1 hs).2
      rcases List.mem_cons.1 hy with rfl | hy2
      · exfalso
        have h1 : distTo v (pickMin v c cs) ≤ distTo v c :=
          pickMin_dist_le v cs c c (List.mem_cons_self _ _)
        omega
      · exact ih c hccs y hy2 ht
    · have hstep : pickMin v b (c :: cs) = pickMin v b cs := by
        rw [pickMin_cons, if_neg hcb]
      rw [hstep] at ht ⊢
      have hs2 : List.Sorted (· ≤ ·) (b :: cs) := by
        rw [List.sorted_cons] at hs ⊢
        exact ⟨fun z hz => hs.1 z (List.mem_cons_of_mem _ hz), (List.sorted_cons.1 hs.2).2⟩
      rcases List.mem_cons.1 hy with rfl | hy2
      · exact ih _ hs2 _ (List.mem_cons_self _ _) ht
      · rcases List.mem_cons.1 hy2 with rfl | hy3
        · have hble : distTo v b ≤ distTo v (pickMin v b cs) := by omega
        -- distances of b, the result, and the tied y are all equal here
          have hres : pickMin v b cs ≤ b := ih _ hs2 _ (List.mem_cons_self _ _) hble
          exact le_trans hres hbc
        · exact ih _ hs2 _ (List.mem_cons_of_mem _ hy3) ht

theorem legal_ntasks_mem {v : ℤ} {w r : ℕ} (h : legal_ntasks v w = some r) :
    r ∈ candidatesList w := by
  unfold legal_ntasks minByDist at h
  cases hc : candidatesList w with
  | nil => rw [hc] at h; cases h
  | cons b bs =>
    rw [hc] at h
    injection h with h
    rw [← h, ← hc]
    rw [hc]
    exact pickMin_mem v bs b

theorem legal_ntasks_min_dist {v : ℤ} {w r : ℕ} (h : legal_ntasks v w = some r) :
    ∀ y ∈ candidatesList w, distTo v r ≤ distTo v y := by
  intro y hy
  unfold legal_ntasks minByDist at h
  cases hc : candidatesList w with
  | nil => rw [hc] at h; cases h
  | cons b bs =>
    rw [hc] at h
    injection h with h
    rw [hc] at hy
    rw [← h]
    exact pickMin_dist_le v bs b y hy

theorem legal_ntasks_self {x w : ℕ} (hx : x ∈ candidatesList w) :
    legal_ntasks (x : ℤ) w = some x := by
  unfold legal_ntasks minByDist
  cases hc : candidatesList w with
  | nil => rw [hc] at hx; cases hx
  | cons b bs =>
    rw [hc] at hx
    have hle : distTo (x : ℤ) (pickMin (x : ℤ) b bs) ≤ distTo (x : ℤ) x :=
      pickMin_dist_le (x : ℤ) bs b x hx
    have hxx : distTo (x : ℤ) x = 0 := by simp [distTo]
    have h0 : distTo (x : ℤ) (pickMin (x : ℤ) b bs) = 0 := by omega
    have : ((pickMin (x : ℤ) b bs : ℕ) : ℤ) - (x : ℤ) = 0 :=
      Int.natAbs_eq_zero.1 h0
    have : pickMin (x : ℤ) b bs = x := by omega
    exact congrArg some this

/-- C5: for every lane width `w ≥ 1` with `w ≤ TOTAL_PES` (the budget) and
desired value `≥ 1`, `legal_ntasks` returns a value in `[1, TOTAL_PES]` that
is a positive divisor or a positive multiple of `w`; in particular it never
returns `0`. -/
theorem legal_ntasks_in_range (v : ℤ) (w : ℕ) (_hd : 1 ≤ v) (hw : 1 ≤ w)
    (hB : w ≤ TOTAL_PES) :
    ∃ r, legal_ntasks v w = some r ∧ 1 ≤ r ∧ r ≤ TOTAL_PES ∧ (r ∣ w ∨ w ∣ r) := by
  have hne : candidatesList w ≠ [] := by
    intro hc
    have := one_mem_candidatesList hw
    rw [hc] at this
    cases this
  obtain ⟨b, bs, hc⟩ := List.exists_cons_of_ne_nil hne
  refine ⟨pickMin v b bs, ?_, ?_⟩
  · unfold legal_ntasks minByDist
    rw [hc]
  · have hr : pickMin v b bs ∈ candidatesList w := by
      rw [hc]; exact pickMin_mem v bs b
    rcases mem_candidatesList.1 hr with h | h
    · obtain ⟨h1, h2, h3⟩ := mem_divisorsOf.1 h
      exact ⟨h1, le_trans h2 hB, Or.inl (Nat.dvd_of_mod_eq_zero h3)⟩
    · obtain ⟨k, hk1, hk2, he⟩ := mem_multiplesOf.1 h
      refine ⟨?_, ?_, Or.inr ?_⟩
      · rw [he]; exact Nat.one_le_iff_ne_zero.2 (by positivity)
      · rw [he]
        calc k * w ≤ TOTAL_PES / w * w := Nat.mul_le_mul_right w hk2
        _ ≤ TOTAL_PES := Nat.div_mul_le_self _ _
      · rw [he]; exact dvd_mul_left w k

/-- C5 witness: instantiated at desired 563, lane width 128. -/
theorem legal_ntasks_in_range_witness :
    ∃ r, legal_ntasks 563 128 = some r ∧ 1 ≤ r ∧ r ≤ TOTAL_PES ∧ (r ∣ 128 ∨ 128 ∣ r) :=
  legal_ntasks_in_range 563 128 (by decide) (by decide) (by decide)

/-- C6: when a candidate `y` is at the same distance from the desired value
as the returned value `r`, the snapper preferred the smaller one: `r ≤ y`. -/
theorem legal_ntasks_tie_prefers_smaller (v : ℤ) (w r y : ℕ)
    (hr : legal_ntasks v w = some r) (hy : y ∈ candidatesList w)
    (ht : distTo v y = distTo v r) : r ≤ y := by
  unfold legal_ntasks minByDist at hr
  cases hc : candidatesList w with
  | nil => rw [hc] at hr; cases hr
  | cons b bs =>
    rw [hc] at hr hy
    injection hr with hr
    rw [← hr]
    refine pickMin_tie_le v bs b ?_ y hy ?_
    · rw [← hc]; exact candidatesList_sorted w
    · rw [hr]; omega

set_option maxRecDepth 4000 in
/-- C6 witness: desired 96, lane width 64 — the tie 64 vs 128 resolves to 64. -/
theorem legal_ntasks_tie_prefers_smaller_witness :
    legal_ntasks 96 64 = some 64 ∧ (64 : ℕ) ≤ 128 :=
  ⟨by decide, legal_ntasks_tie_prefers_smaller 96 64 64 128 (by decide) (by decide) (by decide)⟩

/-- C7: the snapper is the identity on already-legal values: any multiple
`k * w` with `1 ≤ k * w ≤ TOTAL_PES` and any positive divisor `d` of `w`
come back unchanged. -/
theorem legal_ntasks_identity (w k d : ℕ) (hw : 1 ≤ w) (hk : 1 ≤ k)
    (hkw : k * w ≤ TOTAL_PES) (hdvd : d ∣ w) (hd1 : 1 ≤ d) :
    legal_ntasks ((k * w : ℕ) : ℤ) w = some (k * w) ∧
    legal_ntasks ((d : ℕ) : ℤ) w = some d := by
  constructor
  · refine legal_ntasks_self (mem_candidatesList.2 (Or.inr (mem_multiplesOf.2 ⟨k, hk, ?_, rfl⟩)))
    exact (Nat.le_div_iff_mul_le (by omega)).2 hkw
  · refine legal_ntasks_self (mem_candidatesList.2 (Or.inl (mem_divisorsOf.2 ⟨hd1, ?_, ?_⟩)))
    · exact Nat.le_of_dvd (by omega) hdvd
    · exact (Nat.dvd_iff_mod_eq_zero).1 hdvd

/-- C7 witness: `legal_ntasks 512 128 = 512` (multiple 4·128) and
`legal_ntasks 32 128 = 32` (divisor). -/
theorem legal_ntasks_identity_witness :
    legal_ntasks ((4 * 128 : ℕ) : ℤ) 128 = some (4 * 128) ∧
    legal_ntasks ((32 : ℕ) : ℤ) 128 = some 32 :=
  legal_ntasks_identity 128 4 32 (by decide) (by decide) (by decide) (by decide) (by decide)

/-!
### Weight-to-TaskCount Allocator (`objective`, lines 168-177)

For a non-stub component the script computes
`raw = raw_weights[comp] / weight_sum * TOTAL_PES` (a float, modelled as `ℚ`),
`bounded = min(max(TASK_MIN_LIMITS.get(comp, 1), int(raw)), TASK_MAX_LIMITS.get(comp, TOTAL_PES))`,
`snapped = max(1, round(bounded / max_mpitasks_per_node)) * max_mpitasks_per_node`.
`int()` truncates toward zero and Python 3's `round` rounds halves to even.
Note that `legal_ntasks` is never invoked here.
-/

/-- Python `int()` on a rational: truncation toward zero. -/
def truncQ (q : ℚ) : ℤ := if 0 ≤ q then ⌊q⌋ else ⌈q⌉

/-- Python 3 `round()` on a rational: round half to even. -/
def roundHalfEven (q : ℚ) : ℤ :=
  if q - ⌊q⌋ < 1 / 2 then ⌊q⌋
  else if 1 / 2 < q - ⌊q⌋ then ⌊q⌋ + 1
  else if ⌊q⌋ % 2 = 0 then ⌊q⌋ else ⌊q⌋ + 1

/-- The clamped integer share of a non-stub component (`bounded` in the script). -/
def alloc_bounded (c : String) (wgt wsum : ℚ) : ℤ :=
  min (max (min_limit c : ℤ) (truncQ (wgt / wsum * (TOTAL_PES : ℚ)))) (max_limit c : ℤ)

/-- The task count the allocator actually produces for a non-stub component
(`snapped` in the script). -/
def allocate_comp (c : String) (wgt wsum : ℚ) (max_mpi : ℕ) : ℤ :=
  max 1 (roundHalfEven ((alloc_bounded c wgt wsum : ℚ) / (max_mpi : ℚ))) * (max_mpi : ℤ)

/-- The per-component task-count map of one trial (`task_counts` in
`objective`): stub components get 1, the rest go through the allocator. -/
def build_task_counts (stub_comps : List String) (raw_weights : String → ℚ)
    (weight_sum : ℚ) (max_mpi : ℕ) : String → ℤ :=
  fun c => if stub_comps.contains c then 1 else allocate_comp c (raw_weights c) weight_sum max_mpi

/-- One component's entry in the final configuration dictionary. -/
structure CompConfig where
  ntasks : ℤ
  nthrds : ℤ
  rootpe : ℤ
deriving DecidableEq, Repr

/-- The configuration dictionary built in `objective` (lines 184-194): stub
components get `{ntasks: 1, nthrds: 1, rootpe: 0}` unconditionally. -/
def build_config (stub_comps : List String) (task_counts : String → ℤ)
    (rootpes : String → Option ℕ) : String → CompConfig :=
  fun c =>
    if stub_comps.contains c then ⟨1, 1, 0⟩
    else ⟨task_counts c, 1, ((rootpes c).getD 0 : ℕ)⟩

theorem min_limit_le_max_limit (c : String) : min_limit c ≤ max_limit c := by
  unfold min_limit max_limit TASK_MIN_LIMITS TASK_MAX_LIMITS TOTAL_PES
  split_ifs <;> simp

theorem min_limit_le_budget (c : String) : min_limit c ≤ TOTAL_PES := by
  unfold min_limit TASK_MIN_LIMITS TOTAL_PES
  split_ifs <;> simp

theorem truncQ_le {q : ℚ} {n : ℤ} (h : q ≤ (n : ℚ)) : truncQ q ≤ n := by
  unfold truncQ
  split
  · calc ⌊q⌋ ≤ ⌊(n : ℚ)⌋ := Int.floor_le_floor h
    _ = n := Int.floor_intCast n
  · calc ⌈q⌉ ≤ ⌈(n : ℚ)⌉ := Int.ceil_le_ceil h
    _ = n := Int.ceil_intCast n

theorem alloc_bounded_le_budget (c : String) (wgt wsum : ℚ) (h0 : 0 < wsum)
    (h1 : wgt ≤ wsum) : alloc_bounded c wgt wsum ≤ (TOTAL_PES : ℤ) := by
  have hraw : wgt / wsum * (TOTAL_PES : ℚ) ≤ ((TOTAL_PES : ℤ) : ℚ) := by
    have hq : wgt / wsum ≤ 1 := (div_le_one h0).2 h1
    have : wgt / wsum * (TOTAL_PES : ℚ) ≤ 1 * (TOTAL_PES : ℚ) :=
      mul_le_mul_of_nonneg_right hq (by norm_num [TOTAL_PES])
    push_cast
    linarith
  have ht : truncQ (wgt / wsum * (TOTAL_PES : ℚ)) ≤ (TOTAL_PES : ℤ) := truncQ_le hraw
  have hm : (min_limit c : ℤ) ≤ (TOTAL_PES : ℤ) := by
    exact_mod_cast min_limit_le_budget c
  calc alloc_bounded c wgt wsum
      ≤ max (min_limit c : ℤ) (truncQ (wgt / wsum * (TOTAL_PES : ℚ))) := min_le_left _ _
    _ ≤ (TOTAL_PES : ℤ) := max_le hm ht

/-- C8: the allocator's intermediate clamped value lies within
`[min_limit c, max_limit c]` (the bounds table has every minimum below the
corresponding maximum, so the clamp is well behaved). -/
theorem alloc_bounded_within_limits (c : String) (wgt wsum : ℚ) :
    (min_limit c : ℤ) ≤ alloc_bounded c wgt wsum ∧
    alloc_bounded c wgt wsum ≤ (max_limit c : ℤ) := by
  have hmm : (min_limit c : ℤ) ≤ (max_limit c : ℤ) := by
    exact_mod_cast min_limit_le_max_limit c
  exact ⟨le_min (le_max_left _ _) hmm, min_le_right _ _⟩

/-- C9: a stub component always receives task count 1 in the trial's task
map and `ntasks = 1`, `rootpe = 0` in the final configuration, regardless of
weights, bounds and overlap structure. -/
theorem stub_component_trivial (stub_comps : List String) (raw_weights : String → ℚ)
    (weight_sum : ℚ) (max_mpi : ℕ) (task_counts : String → ℤ)
    (rootpes : String → Option ℕ) (c : String) (hc : stub_comps.contains c = true) :
    build_task_counts stub_comps raw_weights weight_sum max_mpi c = 1 ∧
    (build_config stub_comps task_counts rootpes c).ntasks = 1 ∧
    (build_config stub_comps task_counts rootpes c).rootpe = 0 := by
  have hm : c ∈ stub_comps := by simpa using hc
  simp [build_task_counts, build_config, hc, hm]

/-- C9 witness: a concrete stub component `GLC`. -/
theorem stub_component_trivial_witness :
    build_task_counts ["GLC"] (fun _ => 1) 1 128 "GLC" = 1 ∧
    (build_config ["GLC"] (fun _ => 37) (fun _ => some 5) "GLC").ntasks = 1 ∧
    (build_config ["GLC"] (fun _ => 37) (fun _ => some 5) "GLC").rootpe = 0 :=
  stub_component_trivial ["GLC"] (fun _ => 1) 1 128 (fun _ => 37) (fun _ => some 5) "GLC"
    (by decide)

theorem roundHalfEven_le {q : ℚ} : ((roundHalfEven q : ℤ) : ℚ) ≤ q + 1 / 2 := by
  unfold roundHalfEven
  have hf := Int.floor_le q
  split_ifs <;> push_cast <;> linarith

theorem truncQ_pos_eq_floor {q : ℚ} (h : 0 ≤ q) : truncQ q = ⌊q⌋ := by
  unfold truncQ
  exact if_pos h

theorem alloc_bounded_LND_96 : alloc_bounded "LND" (193 / 2048) 1 = 96 := by
  have hq : (193 / 2048 : ℚ) / 1 * (TOTAL_PES : ℚ) = 193 / 2 := by
    norm_num [TOTAL_PES]
  have ht : truncQ ((193 / 2048 : ℚ) / 1 * (TOTAL_PES : ℚ)) = 96 := by
    rw [hq, truncQ_pos_eq_floor (by norm_num)]
    norm_num
  have hmin : min_limit "LND" = 1 := by decide
  have hmax : max_limit "LND" = 1024 := by decide
  unfold alloc_bounded
  rw [ht, hmin, hmax]
  norm_num

theorem roundHalfEven_three_halves : roundHalfEven (3 / 2) = 2 := by
  have hf : ⌊(3 / 2 : ℚ)⌋ = 1 := by norm_num
  unfold roundHalfEven
  rw [hf]
  norm_num

theorem allocate_comp_LND_128 : allocate_comp "LND" (193 / 2048) 1 64 = 128 := by
  unfold allocate_comp
  rw [alloc_bounded_LND_96]
  have hq : ((96 : ℤ) : ℚ) / ((64 : ℕ) : ℚ) = 3 / 2 := by norm_num
  rw [hq, roundHalfEven_three_halves]
  norm_num

theorem alloc_bounded_seven : alloc_bounded "LND" (1 / 100) (10 / 7) = 7 := by
  have hq : (1 / 100 : ℚ) / (10 / 7) * (TOTAL_PES : ℚ) = 896 / 125 := by
    norm_num [TOTAL_PES]
  have ht : truncQ ((1 / 100 : ℚ) / (10 / 7) * (TOTAL_PES : ℚ)) = 7 := by
    rw [hq, truncQ_pos_eq_floor (by norm_num)]
    norm_num
  have hmin : min_limit "LND" = 1 := by decide
  have hmax : max_limit "LND" = 1024 := by decide
  unfold alloc_bounded
  rw [ht, hmin, hmax]
  norm_num

theorem allocate_comp_seven_128 : allocate_comp "LND" (1 / 100) (10 / 7) 128 = 128 := by
  unfold allocate_comp
  rw [alloc_bounded_seven]
  have hq : ((7 : ℤ) : ℚ) / ((128 : ℕ) : ℚ) = 7 / 128 := by norm_num
  have hr : roundHalfEven (7 / 128) = 0 := by
    have hf : ⌊(7 / 128 : ℚ)⌋ = 0 := by norm_num
    unfold roundHalfEven
    rw [hf]
    norm_num
  rw [hq, hr]
  norm_num

/-- C10: the allocator's snapped value is a positive multiple of the lane
width, hence at least one full lane width — even for a clamped share far
below the lane width (clamped 7 at lane width 128 yields 128, never a
divisor such as 8) — and it can overshoot the budget by at most half a lane
width: `2 * snapped ≤ 2 * TOTAL_PES + max_mpi`. -/
theorem allocate_comp_lane_multiple (c : String) (wgt wsum : ℚ) (max_mpi : ℕ)
    (hw : 1 ≤ max_mpi) (hwB : max_mpi ≤ TOTAL_PES) (h0 : 0 < wsum) (h1 : wgt ≤ wsum) :
    (max_mpi : ℤ) ∣ allocate_comp c wgt wsum max_mpi ∧
    (max_mpi : ℤ) ≤ allocate_comp c wgt wsum max_mpi ∧
    2 * allocate_comp c wgt wsum max_mpi ≤ 2 * TOTAL_PES + max_mpi ∧
    allocate_comp "LND" (1 / 100) (10 / 7) 128 = 128 := by
  have hb := alloc_bounded_le_budget c wgt wsum h0 h1
  have hwQ : (0 : ℚ) < (max_mpi : ℚ) := by exact_mod_cast Nat.lt_of_lt_of_le Nat.zero_lt_one hw
  refine ⟨dvd_mul_left _ _, ?_, ?_, allocate_comp_seven_128⟩
  · have h2 : (1 : ℤ) ≤ max 1 (roundHalfEven ((alloc_bounded c wgt wsum : ℚ) / (max_mpi : ℚ))) :=
      le_max_left _ _
    unfold allocate_comp
    nlinarith [Int.ofNat_zero_le max_mpi]
  · rcases max_choice (1 : ℤ)
        (roundHalfEven ((alloc_bounded c wgt wsum : ℚ) / (max_mpi : ℚ))) with h | h
    · unfold allocate_comp
      rw [h, one_mul]
      have : (max_mpi : ℤ) ≤ (TOTAL_PES : ℤ) := by exact_mod_cast hwB
      omega
    · have hr : ((roundHalfEven ((alloc_bounded c wgt wsum : ℚ) / (max_mpi : ℚ)) : ℤ) : ℚ) ≤
          (alloc_bounded c wgt wsum : ℚ) / (max_mpi : ℚ) + 1 / 2 := roundHalfEven_le
      have hmul : ((roundHalfEven ((alloc_bounded c wgt wsum : ℚ) / (max_mpi : ℚ)) : ℤ) : ℚ) *
          (max_mpi : ℚ) ≤ (alloc_bounded c wgt wsum : ℚ) + (max_mpi : ℚ) / 2 := by
        have hstep := mul_le_mul_of_nonneg_right hr (le_of_lt hwQ)
        calc ((roundHalfEven ((alloc_bounded c wgt wsum : ℚ) / (max_mpi : ℚ)) : ℤ) : ℚ) *
            (max_mpi : ℚ)
            ≤ ((alloc_bounded c wgt wsum : ℚ) / (max_mpi : ℚ) + 1 / 2) * (max_mpi : ℚ) := hstep
          _ = (alloc_bounded c wgt wsum : ℚ) + (max_mpi : ℚ) / 2 := by
              field_simp
              ring
      have hq : (2 : ℚ) * (allocate_comp c wgt wsum max_mpi : ℚ) ≤
          2 * ((TOTAL_PES : ℕ) : ℚ) + (max_mpi : ℚ) := by
        unfold allocate_comp
        rw [h]
        push_cast
        have hbQ : ((alloc_bounded c wgt wsum : ℤ) : ℚ) ≤ ((TOTAL_PES : ℕ) : ℚ) := by
          exact_mod_cast hb
        nlinarith
      exact_mod_cast hq

/-- C10 witness: lane width 128, weights giving a clamped share of 7. -/
theorem allocate_comp_lane_multiple_witness :
    (128 : ℤ) ∣ allocate_comp "LND" (1 / 100) (10 / 7) 128 ∧
    (128 : ℤ) ≤ allocate_comp "LND" (1 / 100) (10 / 7) 128 ∧
    2 * allocate_comp "LND" (1 / 100) (10 / 7) 128 ≤ 2 * TOTAL_PES + 128 ∧
    allocate_comp "LND" (1 / 100) (10 / 7) 128 = 128 :=
  allocate_comp_lane_multiple "LND" (1 / 100) (10 / 7) 128 (by decide) (by decide)
    (by norm_num) (by norm_num)

set_option maxRecDepth 8000 in
/-- C1 counterexample: with weight 193/2048 (≈ 0.094), weight sum 1 and lane
width 64, the clamped share is 96, the allocator returns 128, but
`legal_ntasks` applied to the clamped share returns 64. -/
theorem allocator_differs_from_snapper :
    alloc_bounded "LND" (193 / 2048) 1 = 96 ∧
    allocate_comp "LND" (193 / 2048) 1 64 = 128 ∧
    legal_ntasks (alloc_bounded "LND" (193 / 2048) 1) 64 = some 64 ∧
    allocate_comp "LND" (193 / 2048) 1 64 ≠ 64 := by
  refine ⟨alloc_bounded_LND_96, allocate_comp_LND_128, ?_, ?_⟩
  · rw [alloc_bounded_LND_96]
    decide
  · rw [allocate_comp_LND_128]
    decide

/-- C1 amended: the allocator's returned count is `max 1 (round(bounded /
lane)) * lane`, a positive multiple of the lane width; whenever that value
fits in the budget it belongs to the snapper's candidate set (it is never a
proper divisor, and `legal_ntasks` itself is not invoked). -/
theorem allocate_comp_amended (c : String) (wgt wsum : ℚ) (max_mpi : ℕ)
    (hw : 1 ≤ max_mpi) :
    ∃ k : ℕ, 1 ≤ k ∧ allocate_comp c wgt wsum max_mpi = (k : ℤ) * (max_mpi : ℤ) ∧
      (k * max_mpi ≤ TOTAL_PES → k * max_mpi ∈ candidatesList max_mpi) := by
  have h2 : (1 : ℤ) ≤ max 1 (roundHalfEven ((alloc_bounded c wgt wsum : ℚ) / (max_mpi : ℚ))) :=
    le_max_left _ _
  refine ⟨(max 1 (roundHalfEven ((alloc_bounded c wgt wsum : ℚ) / (max_mpi : ℚ)))).toNat,
    by omega, ?_, ?_⟩
  · unfold allocate_comp
    congr 1
    omega
  · intro hle
    refine mem_candidatesList.2 (Or.inr (mem_multiplesOf.2 ⟨_, by omega, ?_, rfl⟩))
    exact (Nat.le_div_iff_mul_le (by omega)).2 hle

/-- C1 amended witness: lane width 64, weight 1 of total 1. -/
theorem allocate_comp_amended_witness :
    ∃ k : ℕ, 1 ≤ k ∧ allocate_comp "ICE" 1 1 64 = (k : ℤ) * (64 : ℤ) ∧
      (k * 64 ≤ TOTAL_PES → k * 64 ∈ candidatesList 64) :=
  allocate_comp_amended "ICE" 1 1 64 (by decide)

/-!
### Overlap Packer: `assign_rootpes`

The script gives OCN the exclusive block `[0, task_counts["OCN"])` (pruning
the trial when that alone exceeds `TOTAL_PES`), then walks the overlap
groups in order: each group's non-stub members share the current root PE,
and the cursor advances by the group's maximum non-stub task count, pruning
when the cumulative span would exceed `TOTAL_PES`.  `optuna.TrialPruned`
(and the `ValueError` from `max()` on an all-stub group) is modelled as
`none`.
-/

/-- Python `max(task_counts[comp] for comp in group if comp not in stub_comps)`;
`none` models the `ValueError` raised on an empty generator. -/
def groupMaxTasks (tc : String → ℕ) (stub_comps : List String) (g : List String) : Option ℕ :=
  match (g.filter (fun c => !(stub_comps.contains c))).map tc with
  | [] => none
  | x :: xs => some (xs.foldl max x)

/-- The loop over `overlap_groups` in `assign_rootpes`, carrying the cursor
`current_rootpe` and the map of assignments made so far. -/
def assignGroups (tc : String → ℕ) (stub_comps : List String) :
    List (List String) → ℕ → (String → Option ℕ) → Option (String → Option ℕ)
  | [], _, assigned => some assigned
  | g :: gs, cur, assigned =>
    match groupMaxTasks tc stub_comps g with
    | none => none
    | some m =>
      if cur + m > TOTAL_PES then none
      else
        assignGroups tc stub_comps gs (cur + m)
          (fun c =>
            if (g.filter (fun d => !(stub_comps.contains d) && d != "OCN")).contains c then
              some cur
            else assigned c)

/-- `assign_rootpes(task_counts, stub_comps, overlap_groups)`. -/
def assign_rootpes (tc : String → ℕ) (stub_comps : List String)
    (overlap_groups : List (List String)) : Option (String → Option ℕ) :=
  if tc "OCN" > TOTAL_PES then none
  else
    assignGroups tc stub_comps overlap_groups (tc "OCN")
      (fun c => if c = "OCN" then some 0 else none)

/-- The per-group maximum non-stub task counts, as consumed by the cursor. -/
def groupSpans (tc : String → ℕ) (stub_comps : List String)
    (groups : List (List String)) : List ℕ :=
  groups.map (fun g => (groupMaxTasks tc stub_comps g).getD 0)

theorem contains_false_iff {l : List String} {a : String} :
    l.contains a = false ↔ a ∉ l := by
  simp

theorem le_foldl_max (x : ℕ) : ∀ (xs : List ℕ) (a : ℕ), (a = x ∨ a ∈ xs) →
    a ≤ xs.foldl max x := by
  intro xs
  induction xs generalizing x with
  | nil =>
    intro a ha
    rcases ha with rfl | h
    · exact le_refl _
    · cases h
  | cons y ys ih =>
    intro a ha
    rw [List.foldl_cons]
    rcases ha with rfl | h
    · exact le_trans (le_max_left a y) (ih (max a y) _ (Or.inl rfl))
    · rcases List.mem_cons.1 h with rfl | h
      · exact le_trans (le_max_right x a) (ih (max x a) _ (Or.inl rfl))
      · exact ih (max x y) _ (Or.inr h)

theorem groupMaxTasks_le {tc : String → ℕ} {stub_comps : List String}
    {g : List String} {m : ℕ} (h : groupMaxTasks tc stub_comps g = some m)
    {c : String} (hc : c ∈ g) (hs : stub_comps.contains c = false) : tc c ≤ m := by
  unfold groupMaxTasks at h
  cases hl : (g.filter (fun d => !(stub_comps.contains d))).map tc with
  | nil => rw [hl] at h; cases h
  | cons x xs =>
    rw [hl] at h
    injection h with h
    have hmem : tc c ∈ x :: xs := by
      rw [← hl]
      exact List.mem_map_of_mem tc (List.mem_filter.2 ⟨hc, by simpa using hs⟩)
    rw [← h]
    rcases List.mem_cons.1 hmem with he | hmem
    · exact le_foldl_max x xs _ (Or.inl he)
    · exact le_foldl_max x xs _ (Or.inr hmem)

theorem assignGroups_frozen (tc : String → ℕ) (stub_comps : List String) :
    ∀ (gs : List (List String)) (cur : ℕ) (assigned A : String → Option ℕ),
      assignGroups tc stub_comps gs cur assigned = some A →
      ∀ c : String,
        (∀ g ∈ gs,
          (g.filter (fun d => !(stub_comps.contains d) && d != "OCN")).contains c = false) →
        A c = assigned c := by
  intro gs
  induction gs with
  | nil =>
    intro cur assigned A h c _
    simp only [assignGroups] at h
    injection h with h
    rw [← h]
  | cons g gs ih =>
    intro cur assigned A h c hc
    simp only [assignGroups] at h
    cases hm : groupMaxTasks tc stub_comps g with
    | none => simp only [hm] at h; cases h
    | some m =>
      simp only [hm] at h
      split at h
      · cases h
      · have hrec := ih (cur + m) _ A h c (fun g' hg' => hc g' (List.mem_cons_of_mem _ hg'))
        rw [hrec]
        simp only [hc g (List.mem_cons_self _ _)]
        rfl

theorem assignGroups_offset (tc : String → ℕ) (stub_comps : List String) :
    ∀ (gs : List (List String)) (cur : ℕ) (assigned A : String → Option ℕ),
      assignGroups tc stub_comps gs cur assigned = some A →
      ∀ (i : ℕ) (c : String), i < gs.length → c ∈ gs.getD i [] →
        stub_comps.contains c = false → c ≠ "OCN" →
        (∀ k, i < k → c ∉ gs.getD k []) →
        ∃ o, A c = some o ∧ cur ≤ o := by
  intro gs
  induction gs with
  | nil =>
    intro cur assigned A _ i c hi
    exact absurd hi (Nat.not_lt_zero i)
  | cons g gs ih =>
    intro cur assigned A h i c hi hc hstub hocn hlater
    simp only [assignGroups] at h
    cases hm : groupMaxTasks tc stub_comps g with
    | none => simp only [hm] at h; cases h
    | some m =>
      simp only [hm] at h
      split at h
      · cases h
      · cases i with
        | zero =>
          have hcg : c ∈ g := by simpa using hc
          have hnot : ∀ g' ∈ gs,
              (g'.filter (fun d => !(stub_comps.contains d) && d != "OCN")).contains c
                = false := by
            intro g' hg'
            obtain ⟨n, hgn⟩ := List.mem_iff_get.1 hg'
            refine contains_false_iff.2 (fun hmemf => ?_)
            have hcg' : c ∈ g' := (List.mem_filter.1 hmemf).1
            have hk := hlater (n.1 + 1) (by omega)
            rw [List.getD_cons_succ] at hk
            rw [List.getD_eq_getElem _ _ n.2] at hk
            rw [← List.get_eq_getElem, hgn] at hk
            exact hk hcg'
          have hfr := assignGroups_frozen tc stub_comps gs (cur + m) _ A h c hnot
          refine ⟨cur, ?_, le_refl cur⟩
          rw [hfr]
          have hmemf : c ∈ g.filter (fun d => !(stub_comps.contains d) && d != "OCN") := by
            refine List.mem_filter.2 ⟨hcg, ?_⟩
            simp [hocn, contains_false_iff.1 hstub]
          simp only [List.elem_eq_true_of_mem hmemf]
          rfl
        | succ n =>
          have hc' : c ∈ gs.getD n [] := by simpa using hc
          have hlater' : ∀ k, n < k → c ∉ gs.getD k [] := by
            intro k hk
            have := hlater (k + 1) (by omega)
            simpa using this
          obtain ⟨o, hA, ho⟩ := ih (cur + m) _ A h n c (by simpa using hi) hc' hstub hocn hlater'
          exact ⟨o, hA, by omega⟩

theorem assignGroups_ordered (tc : String → ℕ) (stub_comps : List String) :
    ∀ (gs : List (List String)) (cur : ℕ) (assigned A : String → Option ℕ),
      assignGroups tc stub_comps gs cur assigned = some A →
      ∀ (i j : ℕ) (c1 c2 : String), i < j → j < gs.length →
        c1 ∈ gs.getD i [] → c2 ∈ gs.getD j [] →
        stub_comps.contains c1 = false → stub_comps.contains c2 = false →
        c1 ≠ "OCN" → c2 ≠ "OCN" →
        (∀ k, k ≠ i → c1 ∉ gs.getD k []) → (∀ k, j < k → c2 ∉ gs.getD k []) →
        ∃ o1 o2, A c1 = some o1 ∧ A c2 = some o2 ∧ cur ≤ o1 ∧ o1 + tc c1 ≤ o2 := by
  intro gs
  induction gs with
  | nil =>
    intro cur assigned A _ i j c1 c2 _ hj
    exact absurd hj (Nat.not_lt_zero j)
  | cons g gs ih =>
    intro cur assigned A h i j c1 c2 hij hj hc1 hc2 hs1 hs2 ho1 ho2 hu1 hl2
    simp only [assignGroups] at h
    cases hm : groupMaxTasks tc stub_comps g with
    | none => simp only [hm] at h; cases h
    | some m =>
      simp only [hm] at h
      split at h
      · cases h
      · cases i with
        | zero =>
          obtain ⟨j1, rfl⟩ : ∃ j1, j = j1 + 1 := ⟨j - 1, by omega⟩
          have hcg : c1 ∈ g := by simpa using hc1
          have hnot : ∀ g' ∈ gs,
              (g'.filter (fun d => !(stub_comps.contains d) && d != "OCN")).contains c1
                = false := by
            intro g' hg'
            obtain ⟨n, hgn⟩ := List.mem_iff_get.1 hg'
            refine contains_false_iff.2 (fun hmemf => ?_)
            have hcg' : c1 ∈ g' := (List.mem_filter.1 hmemf).1
            have hk := hu1 (n.1 + 1) (by omega)
            rw [List.getD_cons_succ] at hk
            rw [List.getD_eq_getElem _ _ n.2] at hk
            rw [← List.get_eq_getElem, hgn] at hk
            exact hk hcg'
          have hfr := assignGroups_frozen tc stub_comps gs (cur + m) _ A h c1 hnot
          have hA1 : A c1 = some cur := by
            rw [hfr]
            have hmemf : c1 ∈ g.filter (fun d => !(stub_comps.contains d) && d != "OCN") := by
              refine List.mem_filter.2 ⟨hcg, ?_⟩
              simp [ho1, contains_false_iff.1 hs1]
            simp only [List.elem_eq_true_of_mem hmemf]
            rfl
          have hc2' : c2 ∈ gs.getD j1 [] := by simpa using hc2
          have hl2' : ∀ k, j1 < k → c2 ∉ gs.getD k [] := by
            intro k hk
            have := hl2 (k + 1) (by omega)
            simpa using this
          obtain ⟨o2, hA2, ho2'⟩ := assignGroups_offset tc stub_comps gs (cur + m) _ A h
            j1 c2 (by simpa using hj) hc2' hs2 ho2 hl2'
          have htc : tc c1 ≤ m := groupMaxTasks_le hm hcg hs1
          exact ⟨cur, o2, hA1, hA2, le_refl cur, by omega⟩
        | succ n =>
          obtain ⟨j1, rfl⟩ : ∃ j1, j = j1 + 1 := ⟨j - 1, by omega⟩
          have hc1' : c1 ∈ gs.getD n [] := by simpa using hc1
          have hc2' : c2 ∈ gs.getD j1 [] := by simpa using hc2
          have hu1' : ∀ k, k ≠ n → c1 ∉ gs.getD k [] := by
            intro k hk
            have := hu1 (k + 1) (by omega)
            simpa using this
          have hl2' : ∀ k, j1 < k → c2 ∉ gs.getD k [] := by
            intro k hk
            have := hl2 (k + 1) (by omega)
            simpa using this
          obtain ⟨o1, o2, h1, h2, hcur, hord⟩ := ih (cur + m) _ A h n j1 c1 c2
            (by omega) (by simpa using hj) hc1' hc2' hs1 hs2 ho1 ho2 hu1' hl2'
          exact ⟨o1, o2, h1, h2, by omega, hord⟩

theorem assignGroups_span (tc : String → ℕ) (stub_comps : List String) :
    ∀ (gs : List (List String)) (cur : ℕ) (assigned A : String → Option ℕ),
      assignGroups tc stub_comps gs cur assigned = some A → cur ≤ TOTAL_PES →
      ∀ k, cur + ((groupSpans tc stub_comps gs).take k).sum ≤ TOTAL_PES := by
  intro gs
  induction gs with
  | nil =>
    intro cur assigned A _ hcur k
    simp [groupSpans]
    exact hcur
  | cons g gs ih =>
    intro cur assigned A h hcur k
    simp only [assignGroups] at h
    cases hm : groupMaxTasks tc stub_comps g with
    | none => simp only [hm] at h; cases h
    | some m =>
      simp only [hm] at h
      split at h
      case isTrue => cases h
      case isFalse hle =>
        cases k with
        | zero => simpa using hcur
        | succ k1 =>
          have hrec := ih (cur + m) _ A h (by omega) k1
          simp only [groupSpans, List.map_cons, List.take_succ_cons, List.sum_cons, hm,
            Option.getD_some]
          simp only [groupSpans] at hrec
          omega

/-- C3: in every assignment the packer returns, OCN sits at offset 0
reserving `[0, tc "OCN")`, and any two non-stub components placed in
different overlap groups get ranges `[root, root + count)` that neither
intersect each other nor OCN's reserved block. -/
theorem assign_rootpes_disjoint (tc : String → ℕ) (stub_comps : List String)
    (overlap_groups : List (List String)) (A : String → Option ℕ)
    (hA : assign_rootpes tc stub_comps overlap_groups = some A)
    (i j : ℕ) (c1 c2 : String)
    (hj : j < overlap_groups.length) (hij : i ≠ j)
    (hc1 : c1 ∈ overlap_groups.getD i []) (hc2 : c2 ∈ overlap_groups.getD j [])
    (hs1 : stub_comps.contains c1 = false) (hs2 : stub_comps.contains c2 = false)
    (ho1 : c1 ≠ "OCN") (ho2 : c2 ≠ "OCN")
    (hu1 : ∀ k, k ≠ i → c1 ∉ overlap_groups.getD k [])
    (hu2 : ∀ k, k ≠ j → c2 ∉ overlap_groups.getD k []) :
    A "OCN" = some 0 ∧
    ∃ o1 o2, A c1 = some o1 ∧ A c2 = some o2 ∧
      (o1 + tc c1 ≤ o2 ∨ o2 + tc c2 ≤ o1) ∧
      tc "OCN" ≤ o1 ∧ tc "OCN" ≤ o2 := by
  unfold assign_rootpes at hA
  split at hA
  · cases hA
  · have hi : i < overlap_groups.length := by
      by_contra hlt
      have : overlap_groups.getD i [] = [] := by
        apply List.getD_eq_default
        omega
      rw [this] at hc1
      cases hc1
    constructor
    · have hnot : ∀ g ∈ overlap_groups,
          (g.filter (fun d => !(stub_comps.contains d) && d != "OCN")).contains "OCN"
            = false := by
        intro g _
        refine contains_false_iff.2 (fun hmemf => ?_)
        have hp := (List.mem_filter.1 hmemf).2
        simp at hp
      have hfr := assignGroups_frozen tc stub_comps overlap_groups (tc "OCN") _ A hA "OCN" hnot
      rw [hfr]
      rfl
    · rcases Nat.lt_or_ge i j with hlt | hge
      · obtain ⟨o1, o2, h1, h2, hcur, hord⟩ := assignGroups_ordered tc stub_comps
          overlap_groups (tc "OCN") _ A hA i j c1 c2 hlt hj hc1 hc2 hs1 hs2 ho1 ho2
          hu1 (fun k hk => hu2 k (by omega))
        exact ⟨o1, o2, h1, h2, Or.inl hord, hcur, by omega⟩
      · have hlt : j < i := by omega
        obtain ⟨o2, o1, h2, h1, hcur, hord⟩ := assignGroups_ordered tc stub_comps
          overlap_groups (tc "OCN") _ A hA j i c2 c1 hlt hi hc2 hc1 hs2 hs1 ho2 ho1
          hu2 (fun k hk => hu1 k (by omega))
        exact ⟨o1, o2, h1, h2, Or.inr hord, by omega, hcur⟩

/-- Task counts used by the packer witness: OCN 512, ATM 256, others 128. -/
def tcW : String → ℕ := fun c => if c = "OCN" then 512 else if c = "ATM" then 256 else 128

/-- Overlap groups used by the packer witness. -/
def wGroups : List (List String) := [["ATM"], ["LND"]]

/-- The witness assignment produced by the packer on `tcW` and `wGroups`. -/
def wA : String → Option ℕ := (assign_rootpes tcW [] wGroups).getD (fun _ => none)

/-- C3 witness: two singleton groups behind OCN's 512-wide block. -/
theorem assign_rootpes_disjoint_witness :
    wA "OCN" = some 0 ∧
    ∃ o1 o2, wA "ATM" = some o1 ∧ wA "LND" = some o2 ∧
      (o1 + tcW "ATM" ≤ o2 ∨ o2 + tcW "LND" ≤ o1) ∧
      tcW "OCN" ≤ o1 ∧ tcW "OCN" ≤ o2 :=
  assign_rootpes_disjoint tcW [] wGroups wA rfl 0 1 "ATM" "LND" (by decide) (by decide)
    (by decide) (by decide) rfl rfl (by decide) (by decide)
    (fun k hk => by
      match k with
      | 0 => exact absurd rfl hk
      | 1 => decide
      | n + 2 => simp [wGroups, List.getD])
    (fun k hk => by
      match k with
      | 0 => decide
      | 1 => exact absurd rfl hk
      | n + 2 => simp [wGroups, List.getD])

/-- C4: the packer signals infeasibility (no offsets, hence no score) when
the exclusive component's task count alone exceeds the 1024-PE budget, and
when the cumulative span — OCN's width plus the processed groups' maximum
task counts — would exceed the budget. -/
theorem assign_rootpes_infeasible (tc : String → ℕ) (stub_comps : List String)
    (overlap_groups : List (List String)) :
    (TOTAL_PES < tc "OCN" → assign_rootpes tc stub_comps overlap_groups = none) ∧
    ((∃ k, TOTAL_PES <
        tc "OCN" + ((groupSpans tc stub_comps overlap_groups).take k).sum) →
      assign_rootpes tc stub_comps overlap_groups = none) := by
  constructor
  · intro h
    unfold assign_rootpes
    rw [if_pos (by omega)]
  · rintro ⟨k, hk⟩
    cases hA : assign_rootpes tc stub_comps overlap_groups with
    | none => rfl
    | some A =>
      unfold assign_rootpes at hA
      split at hA
      case isTrue => cases hA
      case isFalse h0 =>
        have := assignGroups_span tc stub_comps overlap_groups (tc "OCN") _ A hA
          (by omega) k
        omega

/-- Task counts with an oversized exclusive component (OCN 2000). -/
def tcBig : String → ℕ := fun c => if c = "OCN" then 2000 else 100

/-- Task counts whose cumulative span overflows the budget. -/
def tcSpan : String → ℕ := fun c => if c = "OCN" then 512 else 400

/-- C4 witness: OCN at 2000 > 1024 prunes; spans 512 + 400 + 400 > 1024 prune. -/
theorem assign_rootpes_infeasible_witness :
    assign_rootpes tcBig [] [["ATM"]] = none ∧
    assign_rootpes tcSpan [] [["ATM"], ["LND"]] = none :=
  ⟨(assign_rootpes_infeasible tcBig [] [["ATM"]]).1 (by decide),
   (assign_rootpes_infeasible tcSpan [] [["ATM"], ["LND"]]).2 ⟨2, by decide⟩⟩

/-!
### Report Parser: the line-processing core of `parse_timing`

Each line is first stripped (`line.strip()`), then tried against the four
regexes in order: `Model Cost:\s+([\d\.]+)` (searched), `Model
Throughput:\s+([\d\.]+)` (searched), `^\s+([A-Z]{3}) Run
Time:\s+([\d\.]+) seconds` (anchored at the start), and `TOT Run
Time:\s+([\d\.]+) seconds` (searched).  The matchers below transcribe
those patterns; Python floats are parsed into `ℚ`.
-/

/-- Characters matched by the regex class `\s`. -/
def isWSChar (c : Char) : Bool :=
  c = ' ' || c = '\t' || c = '\n' || c = '\r' || c = '\x0b' || c = '\x0c'

/-- Characters matched by the regex class `[\d\.]`. -/
def isNumChar (c : Char) : Bool := c.isDigit || c = '.'

/-- Match a literal prefix, returning the remainder. -/
def dropLit : List Char → List Char → Option (List Char)
  | [], s => some s
  | _ :: _, [] => none
  | l :: ls, c :: cs => if l = c then dropLit ls cs else none

/-- Match `\s+` greedily (at least one whitespace character). -/
def dropWS1 : List Char → Option (List Char)
  | [] => none
  | c :: cs => if isWSChar c then some (cs.dropWhile isWSChar) else none

/-- Capture `[\d\.]+` greedily, returning the capture and the remainder. -/
def takeNum (s : List Char) : Option (List Char × List Char) :=
  match s.takeWhile isNumChar with
  | [] => none
  | n => some (n, s.dropWhile isNumChar)

/-- `re.search`: try the pattern at every start position, leftmost match wins. -/
def searchFrom {α : Type} (p : List Char → Option α) : List Char → Option α
  | [] => p []
  | c :: cs =>
    match p (c :: cs) with
    | some r => some r
    | none => searchFrom p cs

/-- Digit run to a natural number. -/
def digitsToNat (l : List Char) : ℕ :=
  l.foldl (fun a c => a * 10 + (c.toNat - 48)) 0

/-- Python `float()` on the well-formed captures `[\d\.]+` used here: the
value of `i.f` is the rational `(i * 10 ^ len f + f) / 10 ^ len f`. -/
def parseFloatQ (s : List Char) : ℚ :=
  match s.splitOn '.' with
  | [i] => mkRat (digitsToNat i) 1
  | [i, f] => mkRat (digitsToNat i * 10 ^ f.length + digitsToNat f) (10 ^ f.length)
  | _ => 0

/-- Pattern `<lit>\s+([\d\.]+)` at the current position. -/
def litNumPat (lit : List Char) (s : List Char) : Option ℚ := do
  let r1 ← dropLit lit s
  let r2 ← dropWS1 r1
  let (n, _) ← takeNum r2
  pure (parseFloatQ n)

/-- Pattern `<lit>\s+([\d\.]+) seconds` at the current position. -/
def litNumSecondsPat (lit : List Char) (s : List Char) : Option ℚ := do
  let r1 ← dropLit lit s
  let r2 ← dropWS1 r1
  let (n, r3) ← takeNum r2
  let _ ← dropLit " seconds".toList r3
  pure (parseFloatQ n)

/-- Anchored pattern `^\s+([A-Z]{3}) Run Time:\s+([\d\.]+) seconds`. -/
def compTimePat (s : List Char) : Option (String × ℚ) := do
  let r1 ← dropWS1 s
  match r1 with
  | a :: b :: c :: rest =>
    if a.isUpper && b.isUpper && c.isUpper then do
      let r2 ← dropLit " Run Time:".toList rest
      let r3 ← dropWS1 r2
      let (n, r4) ← takeNum r3
      let _ ← dropLit " seconds".toList r4
      pure (String.mk [a, b, c], parseFloatQ n)
    else none
  | _ => none

/-- The parse result record built by `parse_timing`. -/
structure TimingResult where
  total_cost : Option ℚ
  throughput : Option ℚ
  run_time : Option ℚ
  component_times : List (String × ℚ)
deriving DecidableEq, Repr

/-- Python dict assignment `component_times[comp] = v`. -/
def upsert (l : List (String × ℚ)) (k : String) (v : ℚ) : List (String × ℚ) :=
  if l.any (fun p => p.1 = k) then l.map (fun p => if p.1 = k then (k, v) else p)
  else l ++ [(k, v)]

/-- Python `line.strip()`: drop whitespace from both ends. -/
def stripChars (s : List Char) : List Char :=
  ((s.dropWhile isWSChar).reverse.dropWhile isWSChar).reverse

/-- One iteration of the `for line in f` loop in `parse_timing`: strip the
line, then try cost, throughput, component, total-runtime in order. -/
def processLine (res : TimingResult) (line : String) : TimingResult :=
  let l := stripChars line.toList
  match searchFrom (litNumPat "Model Cost:".toList) l with
  | some v => { res with total_cost := some v }
  | none =>
    match searchFrom (litNumPat "Model Throughput:".toList) l with
    | some v => { res with throughput := some v }
    | none =>
      match compTimePat l with
      | some (c, v) => { res with component_times := upsert res.component_times c v }
      | none =>
        match searchFrom (litNumSecondsPat "TOT Run Time:".toList) l with
        | some v => { res with run_time := some v }
        | none => res

/-- The parsing core of `parse_timing` over the report's lines; the final
check models the `RuntimeError` on missing scalar metrics. -/
def parse_timing_lines (lines : List String) : Except Unit TimingResult :=
  let r := lines.foldl processLine ⟨none, none, none, []⟩
  if r.total_cost.isNone || r.throughput.isNone || r.run_time.isNone then Except.error ()
  else Except.ok r

/-- C2 (code bug): parsing the documented four-line report yields the three
scalars as claimed, but `component_times` comes back empty, not
`{"ATM": 400.0}` — each line is stripped before matching, and the component
regex is anchored on `^\s+` (leading whitespace), so it can never match a
stripped line.  The last two conjuncts exhibit the slip: the component
pattern does match the raw line, and fails on the stripped one. -/
theorem parse_timing_component_times_empty :
    parse_timing_lines ["Model Cost: 1000.0", "Model Throughput: 10.0",
      "TOT Run Time: 500.0 seconds", "  ATM Run Time: 400.0 seconds"] =
      Except.ok ⟨some 1000, some 10, some 500, []⟩ ∧
    compTimePat "  ATM Run Time: 400.0 seconds".toList = some ("ATM", 400) ∧
    compTimePat (stripChars "  ATM Run Time: 400.0 seconds".toList) = none :=
  ⟨rfl, rfl, rfl⟩
